import Mathlib

/-!
Shallow embedding of the jj-status-parser library (src/lib.rs).

The Rust code is built on winnow parser combinators.  A winnow parser of
type `FnMut(&mut &str) -> Result<T>` is embedded as a function
`Input → Option (T × Input)` returning the parsed value together with the
remaining input on success, and `none` on a (backtrackable) parse error.
All errors in the source are backtrackable (no `cut_err` is used), and the
combinators `alt` / `opt` restore the input on an inner failure, which the
`Option` embedding models by simply reusing the original input.

Strings are embedded as `List Char`.  `PathBuf` built by collecting the
`/`-separated segments is embedded as the list of segments (each segment is
non-empty and free of `/` and newline, so the segment list and the joined
display string determine each other).
-/

abbrev Input := List Char

/-- Coerce a Lean string literal to the `List Char` input representation. -/
def str (s : String) : Input := s.data

/-- winnow: a string literal used as a parser (`"lit".parse_next(s)`)
matches exactly that literal at the head of the input. -/
def lit (t : Input) : Input → Option (Unit × Input) := fun s =>
  if t.isPrefixOf s then some ((), s.drop t.length) else none

/-- winnow `take_while(1.., pred)`: longest prefix of characters satisfying
`pred`, failing when that prefix is empty. -/
def takeWhile1 (p : Char → Bool) : Input → Option (Input × Input) := fun s =>
  if (s.takeWhile p).isEmpty then none else some (s.takeWhile p, s.dropWhile p)

/-- winnow `take_till(1.., pred)`: longest prefix of characters NOT
satisfying `pred`, failing when that prefix is empty. -/
def takeTill1 (p : Char → Bool) : Input → Option (Input × Input) :=
  takeWhile1 (fun c => ! p c)

/-- Horizontal whitespace recognized by winnow `space0` / `space1`. -/
def isSpaceChar (c : Char) : Bool := c == ' ' || c == '\t'

/-- winnow `space0`: zero or more spaces/tabs, never fails. -/
def space0 : Input → Option (Unit × Input) := fun s =>
  some ((), s.dropWhile isSpaceChar)

/-- winnow `space1`: one or more spaces/tabs. -/
def space1 : Input → Option (Unit × Input) := fun s =>
  if (s.takeWhile isSpaceChar).isEmpty then none
  else some ((), s.dropWhile isSpaceChar)

/-- winnow `newline`: the single character `'\n'`. -/
def newlineP : Input → Option (Unit × Input) := fun s =>
  match s with
  | '\n' :: r => some ((), r)
  | _ => none

/-- winnow `opt(p)`: never fails; restores the input when `p` fails. -/
def optP (p : Input → Option (α × Input)) : Input → Option (Option α × Input) := fun s =>
  match p s with
  | some (a, r) => some (some a, r)
  | none => some (none, s)

/-- winnow `rest`: the whole remaining input, possibly empty; never fails. -/
def restP : Input → Option (Input × Input) := fun s => some (s, [])

/-- Index of the first occurrence of the literal `t` as a contiguous
subsequence of `s` (`none` when it does not occur).  This is the search
performed by winnow's `FindSlice` used by `take_until`. -/
def findSub (t : Input) : Input → Option Nat
  | [] => if t.isEmpty then some 0 else none
  | c :: cs =>
    if t.isPrefixOf (c :: cs) then some 0
    else (findSub t cs).map (· + 1)

/-- winnow `take_until(1.., t)`: everything up to (excluding) the first
occurrence of the literal `t`; fails when `t` does not occur or occurs at
offset `0` (at least one character must be taken). -/
def takeUntil1 (t : Input) : Input → Option (Input × Input) := fun s =>
  match findSub t s with
  | none => none
  | some i => if 1 ≤ i then some (s.take i, s.drop i) else none

/-! ## Data model (src/lib.rs) -/

/-- `enum FileStatus { Added, Modified, Removed }` -/
inductive FileStatus : Type
  | added
  | modified
  | removed
deriving DecidableEq, Repr

/-- `struct WorkingCopyChange { status: FileStatus, path: PathBuf }`;
the `PathBuf` is embedded as its list of `/`-separated segments. -/
structure WorkingCopyChange : Type where
  status : FileStatus
  path : List Input
deriving DecidableEq, Repr

/-- `struct CommitDetails` -/
structure CommitDetails : Type where
  change_id : Input
  commit_id : Input
  empty : Bool
  bookmark : Option Input
  description : Option Input
deriving DecidableEq, Repr

/-- `enum Commit { WorkingCopy(CommitDetails), ParentCommit(CommitDetails) }` -/
inductive Commit : Type
  | workingCopy (details : CommitDetails)
  | parentCommit (details : CommitDetails)
deriving DecidableEq, Repr

/-- `struct Status` -/
structure Status : Type where
  file_changes : List WorkingCopyChange
  working_copy : Commit
  parent_commit : Commit
deriving DecidableEq, Repr

/-- `const EMPTY_DESCRIPTION: &str = "(no description set)"` -/
def EMPTY_DESCRIPTION : Input := str "(no description set)"

/-- `CommitDetails::description()`: the stored description, or the
`EMPTY_DESCRIPTION` sentinel when absent. -/
def CommitDetails.descriptionView (d : CommitDetails) : Input :=
  match d.description with
  | some description => description
  | none => EMPTY_DESCRIPTION

/-! ## Grammar (src/lib.rs) -/

/-- `fn file_status`: `alt(('A' => Added, 'R' => Removed, 'M' => Modified))`;
the three alternatives are disjoint single characters. -/
def fileStatusP : Input → Option (FileStatus × Input) := fun s =>
  match s with
  | 'A' :: r => some (.added, r)
  | 'R' :: r => some (.removed, r)
  | 'M' :: r => some (.modified, r)
  | _ => none

/-- `fn part`: `take_till(1.., |c| c == '/' || c == '\n')`. -/
def part : Input → Option (Input × Input) :=
  takeTill1 (fun c => c == '/' || c == '\n')

/-- Loop of winnow `separated`: after the first element, repeatedly parse
separator-then-element, backtracking the separator when the element fails.
The fuel argument only bounds the iteration count for termination: every
iteration that recurses consumes the separator literal, which is non-empty
at every use site (`"/"`, `"\n"`), so starting the fuel at
`length of remaining input + 1` it is never exhausted. -/
def sepGo (p : Input → Option (α × Input)) (sep : Input) :
    Nat → List α → Input → (List α × Input)
  | 0, acc, s => (acc.reverse, s)
  | Nat.succ n, acc, s =>
    match lit sep s with
    | none => (acc.reverse, s)
    | some (_, s1) =>
      match p s1 with
      | none => (acc.reverse, s)
      | some (a, s2) => sepGo p sep n (a :: acc) s2

/-- winnow `separated(1.., p, sep)`. -/
def sepBy1 (p : Input → Option (α × Input)) (sep : Input) :
    Input → Option (List α × Input) := fun s =>
  match p s with
  | none => none
  | some (a, s1) => some (sepGo p sep (s1.length + 1) [a] s1)

/-- winnow `separated(0.., p, sep)`: an initial element failure yields the
empty list with nothing consumed. -/
def sepBy0 (p : Input → Option (α × Input)) (sep : Input) :
    Input → Option (List α × Input) := fun s =>
  match p s with
  | none => some ([], s)
  | some (a, s1) => some (sepGo p sep (s1.length + 1) [a] s1)

/-- `fn path`: `separated(1.., part, "/")` collected into a `PathBuf`
(embedded as the segment list). -/
def pathP : Input → Option (List Input × Input) :=
  sepBy1 part (str "/")

/-- `fn file_change`: `seq!(status: file_status, _: space1, path: path)`. -/
def fileChangeP : Input → Option (WorkingCopyChange × Input) := fun s =>
  match fileStatusP s with
  | none => none
  | some (st, s1) =>
    match space1 s1 with
    | none => none
    | some (_, s2) =>
      match pathP s2 with
      | none => none
      | some (p, s3) => some ({ status := st, path := p }, s3)

/-- `fn file_no_changes`: the fixed sentence, yielding an empty list. -/
def fileNoChangesP : Input → Option (List WorkingCopyChange × Input) := fun s =>
  match lit (str "The working copy has no changes.") s with
  | none => none
  | some (_, r) => some ([], r)

/-- `fn file_yes_changes`: optional header line, then
`separated(0.., file_change, "\n")`. -/
def fileYesChangesP : Input → Option (List WorkingCopyChange × Input) := fun s =>
  match optP (lit (str "Working copy changes:\n")) s with
  | none => none
  | some (_, s1) => sepBy0 fileChangeP (str "\n") s1

/-- `fn file_changes`: `alt((file_no_changes, file_yes_changes))`. -/
def fileChangesP : Input → Option (List WorkingCopyChange × Input) := fun s =>
  match fileNoChangesP s with
  | some x => some x
  | none => fileYesChangesP s

/-- `fn char_between_inclusive`. -/
def charBetweenInclusive (c lower upper : Char) : Bool :=
  decide (lower ≤ c) && decide (c ≤ upper)

/-- `fn change_id`: `take_while(1.., |c| char_between_inclusive(c, 'k', 'z'))`. -/
def changeIdP : Input → Option (Input × Input) :=
  takeWhile1 (fun c => charBetweenInclusive c 'k' 'z')

/-- `fn commit_id`: `take_while(1..)` over `0`-`9` and `a`-`f`. -/
def commitIdP : Input → Option (Input × Input) :=
  takeWhile1 (fun c => charBetweenInclusive c '0' '9' || charBetweenInclusive c 'a' 'f')

/-- The bookmark delimiter literal `" |"`. -/
def bookmarkDelim : Input := str " |"

/-- `fn bookmark`: peek `take_until(1.., " |")`; reject when the peeked text
spans a newline; otherwise consume the text and the `" |"` delimiter. -/
def bookmarkP : Input → Option (Input × Input) := fun s =>
  match takeUntil1 bookmarkDelim s with
  | none => none
  | some (peeked, _) =>
    if peeked.contains '\n' then none
    else
      match takeUntil1 bookmarkDelim s with
      | none => none
      | some (b, s1) =>
        match lit bookmarkDelim s1 with
        | none => none
        | some (_, s2) => some (b, s2)

/-- `fn description`: the `"(no description set)"` literal maps to `None`;
otherwise `alt((take_till(1.., '\n'), rest))` maps to `Some`. -/
def descriptionP : Input → Option (Option Input × Input) := fun s =>
  match lit EMPTY_DESCRIPTION s with
  | some (_, r) => some (none, r)
  | none =>
    match takeTill1 (fun c => c == '\n') s with
    | some (v, r) => some (some v, r)
    | none => some (some s, [])

/-- `fn empty`: `opt("(empty) ")` mapped to a boolean; never fails. -/
def emptyP : Input → Option (Bool × Input) := fun s =>
  match lit (str "(empty) ") s with
  | some (_, r) => some (true, r)
  | none => some (false, s)

/-- `fn commit_details`: the strict left-to-right `seq!`. -/
def commitDetailsP : Input → Option (CommitDetails × Input) := fun s =>
  match changeIdP s with
  | none => none
  | some (cid, s1) =>
    match space1 s1 with
    | none => none
    | some (_, s2) =>
      match commitIdP s2 with
      | none => none
      | some (coid, s3) =>
        match space1 s3 with
        | none => none
        | some (_, s4) =>
          match emptyP s4 with
          | none => none
          | some (e, s5) =>
            match space0 s5 with
            | none => none
            | some (_, s6) =>
              match optP bookmarkP s6 with
              | none => none
              | some (b, s7) =>
                match space0 s7 with
                | none => none
                | some (_, s8) =>
                  match descriptionP s8 with
                  | none => none
                  | some (d, s9) =>
                    some ({ change_id := cid, commit_id := coid, empty := e,
                            bookmark := b, description := d }, s9)

/-- `fn working_copy`: `"Working copy"`, `space1`, `":"`, `space1`,
`commit_details` wrapped as `Commit::WorkingCopy`. -/
def workingCopyP : Input → Option (Commit × Input) := fun s =>
  match lit (str "Working copy") s with
  | none => none
  | some (_, s1) =>
    match space1 s1 with
    | none => none
    | some (_, s2) =>
      match lit (str ":") s2 with
      | none => none
      | some (_, s3) =>
        match space1 s3 with
        | none => none
        | some (_, s4) =>
          match commitDetailsP s4 with
          | none => none
          | some (d, s5) => some (.workingCopy d, s5)

/-- `fn parent_commit`: `"Parent commit:"`, `space1`, `commit_details`
wrapped as `Commit::ParentCommit`. -/
def parentCommitP : Input → Option (Commit × Input) := fun s =>
  match lit (str "Parent commit:") s with
  | none => none
  | some (_, s1) =>
    match space1 s1 with
    | none => none
    | some (_, s2) =>
      match commitDetailsP s2 with
      | none => none
      | some (d, s3) => some (.parentCommit d, s3)

/-- `fn status`: `seq!(file_changes, opt(newline), working_copy, newline,
parent_commit)`. -/
def statusP : Input → Option (Status × Input) := fun s =>
  match fileChangesP s with
  | none => none
  | some (fc, s1) =>
    match optP newlineP s1 with
    | none => none
    | some (_, s2) =>
      match workingCopyP s2 with
      | none => none
      | some (wc, s3) =>
        match newlineP s3 with
        | none => none
        | some (_, s4) =>
          match parentCommitP s4 with
          | none => none
          | some (pc, s5) =>
            some ({ file_changes := fc, working_copy := wc, parent_commit := pc }, s5)

/-- winnow `Parser::parse`: run the parser, then require the whole input to
have been consumed; trailing input is an error. -/
def parseComplete (p : Input → Option (α × Input)) : Input → Option α := fun s =>
  match p s with
  | none => none
  | some (v, r) => if r.isEmpty then some v else none

/-- `impl FromStr for Status` (`status.parse(s)`); an error is `none`. -/
def Status.fromStr : Input → Option Status :=
  parseComplete statusP

/-! ## Human-readable rendering (the `Display` impls of src/lib.rs) -/

/-- `impl Display for FileStatus`. -/
def FileStatus.render : FileStatus → Input
  | .added => str "A"
  | .modified => str "M"
  | .removed => str "R"

/-- `PathBuf::display()` of a path collected from `/`-separated segments:
the segments joined by `/`. -/
def pathDisplay (segs : List Input) : Input :=
  (segs.intersperse (str "/")).flatten

/-- `impl Display for WorkingCopyChange`: `"{status} {path}"`. -/
def WorkingCopyChange.render (w : WorkingCopyChange) : Input :=
  w.status.render ++ str " " ++ pathDisplay w.path

/-- `impl Display for CommitDetails`:
`"{change_id} {commit_id} {empty}{bookmark}{description}"` where `empty`
renders as `"(empty)"` or `""`, `bookmark` as `"{bookmark} | "` or `""`,
and an absent description as the `EMPTY_DESCRIPTION` sentinel. -/
def CommitDetails.render (d : CommitDetails) : Input :=
  d.change_id ++ str " " ++ d.commit_id ++ str " " ++
    (if d.empty then str "(empty)" else []) ++
    (match d.bookmark with
     | some b => b ++ str " | "
     | none => []) ++
    (match d.description with
     | some de => de
     | none => EMPTY_DESCRIPTION)

/-- `impl Display for Commit`: both variants render their details. -/
def Commit.render : Commit → Input
  | .workingCopy d => d.render
  | .parentCommit d => d.render

/-- `impl Display for Status`: each change rendered in order (with no
separator written between them), then `"Working copy : {}"` and
`"Parent commit: {}"` (with no newline written between any of the parts). -/
def Status.render (st : Status) : Input :=
  (st.file_changes.map WorkingCopyChange.render).flatten ++
    str "Working copy : " ++ st.working_copy.render ++
    str "Parent commit: " ++ st.parent_commit.render

/-- The input text of the spec's end-to-end scenario A. -/
def inputA : Input :=
  str "A src/lib.rs\nWorking copy : qnxonnkx 60be3879 main | (no description set)\nParent commit: zzzzzzzz 00000000 (empty) (no description set)"

/-- The `Status` value of the spec's end-to-end scenario A: one `Added`
change at `src/lib.rs`, working copy `qnxonnkx`/`60be3879`, not empty,
bookmark `main`, no description; parent `zzzzzzzz`/`00000000`, empty,
no bookmark, no description. -/
def statusA : Status :=
  { file_changes := [{ status := .added, path := [str "src", str "lib.rs"] }],
    working_copy := .workingCopy
      { change_id := str "qnxonnkx", commit_id := str "60be3879",
        empty := false, bookmark := some (str "main"), description := none },
    parent_commit := .parentCommit
      { change_id := str "zzzzzzzz", commit_id := str "00000000",
        empty := true, bookmark := none, description := none } }

/-- The description step exactly as claim C3 words it (for comparison with
the code's `descriptionP`): absent description on the literal sentinel,
otherwise the remaining characters strictly up to the next newline (or all
of them when no newline remains), always succeeding. -/
def descriptionSpecC3 : Input → Option (Option Input × Input) := fun s =>
  if EMPTY_DESCRIPTION.isPrefixOf s then some (none, s.drop EMPTY_DESCRIPTION.length)
  else some (some (s.takeWhile (fun c => ! (c == '\n'))), s.dropWhile (fun c => ! (c == '\n')))

/-! ## Helper lemmas about the combinators -/

theorem isPre_append_self : ∀ (t r : Input), t.isPrefixOf (t ++ r) = true
  | [], r => by cases r <;> rfl
  | c :: t, r => by simp [List.isPrefixOf, isPre_append_self t r]

theorem isPre_nil_false (c : Char) (t : Input) : (c :: t).isPrefixOf [] = false := rfl

theorem eq_append_of_isPre :
    ∀ (t s : Input), t.isPrefixOf s = true → s = t ++ s.drop t.length
  | [], s, _ => by simp
  | c :: t, [], h => by simp [isPre_nil_false] at h
  | c :: t, b :: s, h => by
    simp only [List.isPrefixOf, Bool.and_eq_true, beq_iff_eq] at h
    obtain ⟨rfl, h2⟩ := h
    simpa using eq_append_of_isPre t s h2

theorem lit_complete (t r : Input) : lit t (t ++ r) = some ((), r) := by
  simp [lit, isPre_append_self, List.drop_left]

theorem lit_sound {t s r : Input} {u : Unit} (h : lit t s = some (u, r)) :
    s = t ++ r := by
  unfold lit at h
  split at h
  · next hp =>
    obtain ⟨rfl⟩ : s.drop t.length = r := by simpa using h
    exact eq_append_of_isPre t s hp
  · exact absurd h (by simp)

theorem lit_none {t s : Input} (h : lit t s = none) : t.isPrefixOf s = false := by
  unfold lit at h
  split at h
  · exact absurd h (by simp)
  · next hp => simpa only [Bool.not_eq_true] using hp

theorem findSub_found :
    ∀ (s : Input) (t : Input) (i : Nat), findSub t s = some i →
      t.isPrefixOf (s.drop i) = true := by
  intro s
  induction s with
  | nil =>
    intro t i h
    unfold findSub at h
    split at h
    · next ht =>
      obtain ⟨rfl⟩ : (0 : Nat) = i := by simpa using h
      simp [List.isEmpty_iff.mp ht, List.isPrefixOf]
    · exact absurd h (by simp)
  | cons c cs ih =>
    intro t i h
    unfold findSub at h
    split at h
    · next hp =>
      obtain ⟨rfl⟩ : (0 : Nat) = i := by simpa using h
      simpa using hp
    · next hp =>
      obtain ⟨j, hj, rfl⟩ : ∃ j, findSub t cs = some j ∧ j + 1 = i := by
        cases h2 : findSub t cs with
        | none => rw [h2] at h; simp at h
        | some j => rw [h2] at h; exact ⟨j, rfl, by simpa using h⟩
      simpa using ih t j hj

theorem findSub_min :
    ∀ (s : Input) (t : Input) (i : Nat), findSub t s = some i →
      ∀ j, j < i → t.isPrefixOf (s.drop j) = false := by
  intro s
  induction s with
  | nil =>
    intro t i h j hj
    unfold findSub at h
    split at h
    · obtain ⟨rfl⟩ : (0 : Nat) = i := by simpa using h
      omega
    · exact absurd h (by simp)
  | cons c cs ih =>
    intro t i h j hj
    unfold findSub at h
    split at h
    · obtain ⟨rfl⟩ : (0 : Nat) = i := by simpa using h
      omega
    · next hp =>
      obtain ⟨k, hk, rfl⟩ : ∃ k, findSub t cs = some k ∧ k + 1 = i := by
        cases h2 : findSub t cs with
        | none => rw [h2] at h; simp at h
        | some k => rw [h2] at h; exact ⟨k, rfl, by simpa using h⟩
      match j with
      | 0 => simpa only [List.drop_zero, Bool.not_eq_true] using hp
      | Nat.succ j => simpa using ih t k hk j (by omega)

theorem isPre_of_isPre_take :
    ∀ (t l : Input) (k : Nat), t.isPrefixOf (l.take k) = true →
      t.isPrefixOf l = true
  | [], l, _, _ => by cases l <;> rfl
  | c :: t, [], k, h => by simp [isPre_nil_false] at h
  | c :: t, b :: l, 0, h => by simp [isPre_nil_false] at h
  | c :: t, b :: l, Nat.succ k, h => by
    simp only [List.take, List.isPrefixOf, Bool.and_eq_true, beq_iff_eq] at h ⊢
    exact ⟨h.1, isPre_of_isPre_take t l k h.2⟩

theorem findSub_take_none {t s : Input} {i : Nat}
    (h : findSub t s = some i) (ht : t ≠ []) : findSub t (s.take i) = none := by
  cases h2 : findSub t (s.take i) with
  | none => rfl
  | some j =>
    exfalso
    have hp := findSub_found (s.take i) t j h2
    rw [List.drop_take i j s] at hp
    have hji : j < i := by
      by_contra hge
      have : i - j = 0 := by omega
      rw [this] at hp
      match t, ht with
      | c :: t, _ => simp [isPre_nil_false] at hp
    have hp2 : t.isPrefixOf (s.drop j) = true := isPre_of_isPre_take t (s.drop j) (i - j) hp
    have := findSub_min s t i h j hji
    rw [hp2] at this
    exact absurd this (by simp)

theorem takeUntil1_sound {t s v r : Input} (h : takeUntil1 t s = some (v, r)) :
    ∃ i, findSub t s = some i ∧ 1 ≤ i ∧ v = s.take i ∧ r = s.drop i := by
  unfold takeUntil1 at h
  split at h
  · exact absurd h (by simp)
  · next i hf =>
    split at h
    · next hi =>
      obtain ⟨rfl, rfl⟩ : s.take i = v ∧ s.drop i = r := by simpa using h
      exact ⟨i, hf, hi, rfl, rfl⟩
    · exact absurd h (by simp)

theorem takeWhile1_sound {p : Char → Bool} {s v r : Input}
    (h : takeWhile1 p s = some (v, r)) :
    v = s.takeWhile p ∧ r = s.dropWhile p ∧ v ≠ [] := by
  unfold takeWhile1 at h
  split at h
  · exact absurd h (by simp)
  · next hne =>
    obtain ⟨rfl, rfl⟩ : s.takeWhile p = v ∧ s.dropWhile p = r := by simpa using h
    refine ⟨rfl, rfl, ?_⟩
    simpa [List.isEmpty_iff] using hne

theorem takeWhile1_whole (p : Char → Bool) (s : Input) :
    takeWhile1 p s = some (s, []) ↔ (s ≠ [] ∧ s.all p = true) := by
  constructor
  · intro h
    obtain ⟨hv, hr, hne⟩ := takeWhile1_sound h
    have hd : s.dropWhile p = [] := hr.symm
    refine ⟨hne, List.all_eq_true.mpr ?_⟩
    intro x hx
    exact List.dropWhile_eq_nil_iff.mp hd x hx
  · rintro ⟨hne, hall⟩
    have hd : s.dropWhile p = [] := by
      refine List.dropWhile_eq_nil_iff.mpr ?_
      intro x hx
      exact List.all_eq_true.mp hall x hx
    have ht : s.takeWhile p = s := by
      have happ := List.takeWhile_append_dropWhile p s
      rw [hd, List.append_nil] at happ
      exact happ
    simp [takeWhile1, ht, hd, List.isEmpty_iff, hne]

theorem takeWhile1_whole_val {p : Char → Bool} {s v : Input}
    (h : takeWhile1 p s = some (v, [])) : v = s := by
  obtain ⟨hv, hr, _⟩ := takeWhile1_sound h
  have := List.takeWhile_append_dropWhile p s
  rw [← hv, ← hr, List.append_nil] at this
  exact this

theorem optP_ne_none (p : Input → Option (α × Input)) (s : Input) :
    optP p s ≠ none := by
  unfold optP
  split <;> simp

theorem optP_some_inv {p : Input → Option (α × Input)} {s u : Input} {a : α}
    (h : optP p s = some (some a, u)) : p s = some (a, u) := by
  unfold optP at h
  split at h
  · next b r hp =>
    obtain ⟨hba, rfl⟩ : some b = some a ∧ r = u := by simpa using h
    obtain rfl : b = a := Option.some.inj hba
    exact hp
  · exact absurd h (by simp)

theorem bookmarkP_sound {s b r : Input} (h : bookmarkP s = some (b, r)) :
    s = b ++ bookmarkDelim ++ r ∧ b.contains '\n' = false ∧ b ≠ [] ∧
      findSub bookmarkDelim b = none := by
  unfold bookmarkP at h
  split at h
  · exact absurd h (by simp)
  · next peeked rest h1 =>
    split at h
    · exact absurd h (by simp)
    · next hnl =>
      split at h
      · exact absurd h (by simp)
      · next b2 s1 h2 =>
        split at h
        · exact absurd h (by simp)
        · next u r2 h3 =>
          have hbr : b2 = b ∧ r2 = r := by simpa using h
          have hps : peeked = b2 ∧ rest = s1 := by simpa using h2
          obtain ⟨i, hf, hi, hv, hr⟩ := takeUntil1_sound h1
          have hvb : b = s.take i := by rw [← hbr.1, ← hps.1]; exact hv
          have hs1d : s1 = s.drop i := by rw [← hps.2]; exact hr
          have hcontains : b.contains '\n' = false := by
            have hc := hnl
            rw [hps.1, hbr.1] at hc
            simpa only [Bool.not_eq_true] using hc
          have hs1 : s1 = bookmarkDelim ++ r := by
            have hl := lit_sound h3
            rw [hbr.2] at hl
            exact hl
          have hsplit : s = b ++ (bookmarkDelim ++ r) := by
            rw [← hs1, hvb, hs1d]
            exact (List.take_append_drop i s).symm
          have hbne : b ≠ [] := by
            intro hb
            rw [hvb] at hb
            rcases List.take_eq_nil_iff.mp hb with h0 | hnil
            · omega
            · rw [hnil] at hf
              have hemp : findSub bookmarkDelim ([] : Input) = none := rfl
              rw [hemp] at hf
              exact absurd hf (by simp)
          refine ⟨by simpa [List.append_assoc] using hsplit, hcontains, hbne, ?_⟩
          rw [hvb]
          exact findSub_take_none hf (by decide)

theorem bookmarkP_none_of_newline {s : Input} {i : Nat}
    (hf : findSub bookmarkDelim s = some i) (hn : '\n' ∈ s.take i) :
    bookmarkP s = none := by
  have hi : 1 ≤ i := by
    rcases Nat.eq_zero_or_pos i with h0 | h
    · subst h0; simp at hn
    · exact h
  have ht : takeUntil1 bookmarkDelim s = some (s.take i, s.drop i) := by
    unfold takeUntil1
    rw [hf]
    simp [hi]
  have hc : (s.take i).contains '\n' = true := List.elem_iff.mpr hn
  unfold bookmarkP
  rw [ht]
  simp [hc, hn]


theorem descriptionP_ne_sentinel {s : Input} {od : Option Input} {r : Input}
    (h : descriptionP s = some (od, r)) : od ≠ some EMPTY_DESCRIPTION := by
  unfold descriptionP at h
  split at h
  · next u r2 h1 =>
    have hod : (none : Option Input) = od ∧ r2 = r := by simpa using h
    intro hcon
    rw [← hod.1] at hcon
    exact absurd hcon (by simp)
  · next h1 =>
    have hpre : EMPTY_DESCRIPTION.isPrefixOf s = false := lit_none h1
    split at h
    · next v r2 h2 =>
      have hod : some v = od ∧ r2 = r := by simpa using h
      obtain ⟨hv, hrest, hne⟩ := takeWhile1_sound (by simpa [takeTill1] using h2)
      intro hcon
      rw [← hod.1] at hcon
      have hveq : v = EMPTY_DESCRIPTION := by simpa using hcon
      have htrue : EMPTY_DESCRIPTION.isPrefixOf s = true := by
        rw [← hveq]
        have hs : s = v ++ s.dropWhile (fun c => ! (c == '\n')) := by
          rw [hv]
          exact (List.takeWhile_append_dropWhile _ s).symm
        rw [hs]
        exact isPre_append_self v _
      rw [htrue] at hpre
      exact absurd hpre (by simp)
    · next h2 =>
      have hod : some s = od ∧ ([] : Input) = r := by simpa using h
      intro hcon
      rw [← hod.1] at hcon
      have hseq : s = EMPTY_DESCRIPTION := by simpa using hcon
      have htrue : EMPTY_DESCRIPTION.isPrefixOf s = true := by
        rw [hseq]
        have happ := isPre_append_self EMPTY_DESCRIPTION []
        rw [List.append_nil] at happ
        exact happ
      rw [htrue] at hpre
      exact absurd hpre (by simp)

theorem commitDetailsP_fields {s : Input} {cd : CommitDetails} {r : Input}
    (h : commitDetailsP s = some (cd, r)) :
    (∃ t u, optP bookmarkP t = some (cd.bookmark, u)) ∧
      (∃ t u, descriptionP t = some (cd.description, u)) := by
  unfold commitDetailsP at h
  split at h
  · exact absurd h (by simp)
  next cid s1 h1 =>
  split at h
  · exact absurd h (by simp)
  next u1 s2 h2 =>
  split at h
  · exact absurd h (by simp)
  next coid s3 h3 =>
  split at h
  · exact absurd h (by simp)
  next u2 s4 h4 =>
  split at h
  · exact absurd h (by simp)
  next e s5 h5 =>
  split at h
  · exact absurd h (by simp)
  next u3 s6 h6 =>
  split at h
  · exact absurd h (by simp)
  next ob s7 h7 =>
  split at h
  · exact absurd h (by simp)
  next u4 s8 h8 =>
  split at h
  · exact absurd h (by simp)
  next od s9 h9 =>
  have hcd : cd = CommitDetails.mk cid coid e ob od := by
    have hinj : CommitDetails.mk cid coid e ob od = cd ∧ s9 = r := by
      simpa using h
    exact hinj.1.symm
  refine ⟨⟨s6, s7, ?_⟩, ⟨s8, s9, ?_⟩⟩
  · rw [hcd]
    exact h7
  · rw [hcd]
    exact h9

/-! ## Claim theorems -/

set_option maxRecDepth 200000 in
/-- C1 (code bug): the claim says parsing the human-readable rendering of a
valid `Status` succeeds and reproduces its semantic fields, but
`Display for Status` writes the change lines and the two commit lines with
no newline separators (and renders the emptiness flag without the trailing
space the parser requires), so `from_str` fails on the renderer's output
of the scenario-A value. -/
theorem c1_render_of_statusA_fails_to_reparse :
    Status.fromStr (Status.render statusA) = none := by decide

set_option maxRecDepth 200000 in
/-- C5: parsing the scenario-A input succeeds and yields exactly one Added
change at `src/lib.rs`, a working-copy commit `qnxonnkx`/`60be3879`, not
empty, bookmark `main`, no description, and a parent commit
`zzzzzzzz`/`00000000`, empty, no bookmark, no description. -/
theorem c5_scenario_a_parses : Status.fromStr inputA = some statusA := by decide

/-- C4: `Status::from_str` is a whole-input parse: it succeeds exactly when
the `status` grammar consumes the entire input, and whenever `status`
succeeds but leaves unconsumed characters, `from_str` returns a parse
error rather than a `Status`. -/
theorem c4_from_str_whole_input :
    (∀ (s : Input) (v : Status), Status.fromStr s = some v ↔ statusP s = some (v, [])) ∧
      (∀ (s : Input) (v : Status) (r : Input),
        statusP s = some (v, r) → r ≠ [] → Status.fromStr s = none) := by
  constructor
  · intro s v
    unfold Status.fromStr parseComplete
    cases h : statusP s with
    | none => simp
    | some p =>
      obtain ⟨v2, r2⟩ := p
      by_cases hr : r2 = []
      · subst hr
        simp
      · simp [List.isEmpty_iff, hr]
  · intro s v r h hr
    unfold Status.fromStr parseComplete
    rw [h]
    simp [List.isEmpty_iff, hr]

set_option maxRecDepth 200000 in
/-- Witness for C4: scenario-A input with trailing text is rejected. -/
theorem c4_witness : Status.fromStr (inputA ++ str "\nextra") = none :=
  c4_from_str_whole_input.2 (inputA ++ str "\nextra") statusA (str "\nextra")
    (by decide) (by decide)

/-- C6: `file_changes` on any input beginning with the sentence
`"The working copy has no changes."` yields the empty change list and
consumes exactly that sentence and nothing more: the first alternative of
the `alt` wins outright. -/
theorem c6_no_changes_sentence (r : Input) :
    fileChangesP (str "The working copy has no changes." ++ r) = some ([], r) := by
  unfold fileChangesP fileNoChangesP
  rw [lit_complete]

/-- C7: `change_id` and `commit_id` reject the empty string, and a parse
consuming the whole string succeeds exactly on non-empty strings over the
respective alphabets (`'k'`–`'z'`, resp. `'0'`–`'9'` and `'a'`–`'f'`),
returning the string itself. -/
theorem c7_id_alphabets :
    changeIdP [] = none ∧ commitIdP [] = none ∧
      (∀ s : Input, changeIdP s = some (s, []) ↔
        (s ≠ [] ∧ s.all (fun c => charBetweenInclusive c 'k' 'z') = true)) ∧
      (∀ s : Input, commitIdP s = some (s, []) ↔
        (s ≠ [] ∧ s.all (fun c =>
          charBetweenInclusive c '0' '9' || charBetweenInclusive c 'a' 'f') = true)) ∧
      (∀ s v r : Input, changeIdP s = some (v, r) → r = [] → v = s) ∧
      (∀ s v r : Input, commitIdP s = some (v, r) → r = [] → v = s) := by
  refine ⟨rfl, rfl, ?_, ?_, ?_, ?_⟩
  · intro s
    exact takeWhile1_whole _ s
  · intro s
    exact takeWhile1_whole _ s
  · intro s v r h hr
    subst hr
    exact takeWhile1_whole_val h
  · intro s v r h hr
    subst hr
    exact takeWhile1_whole_val h

/-- Witness for C7 on the concrete identifiers of scenario A. -/
theorem c7_witness :
    changeIdP (str "qnxonnkx") = some (str "qnxonnkx", []) ∧
      commitIdP (str "60be3879") = some (str "60be3879", []) :=
  ⟨(c7_id_alphabets.2.2.1 (str "qnxonnkx")).mpr (by decide),
   (c7_id_alphabets.2.2.2.1 (str "60be3879")).mpr (by decide)⟩

/-- C2: a bookmark is reported only when the `" |"` delimiter occurs with
no newline before it; for every input whose earliest `" |"` occurrence lies
after a newline, the `bookmark` sub-rule fails and the enclosing `opt`
yields no bookmark with the input untouched, so parsing never spans a
newline to take a later line's bookmark. -/
theorem c2_bookmark_delimiter_newline :
    (∀ (s : Input) (i : Nat), findSub bookmarkDelim s = some i → '\n' ∈ s.take i →
      bookmarkP s = none ∧ optP bookmarkP s = some (none, s)) ∧
      (∀ (s b r : Input), bookmarkP s = some (b, r) →
        s = b ++ bookmarkDelim ++ r ∧ '\n' ∉ b) := by
  constructor
  · intro s i hf hn
    have hb := bookmarkP_none_of_newline hf hn
    exact ⟨hb, by simp [optP, hb]⟩
  · intro s b r h
    obtain ⟨hs, hc, _, _⟩ := bookmarkP_sound h
    refine ⟨hs, ?_⟩
    intro hmem
    have hct : b.contains '\n' = true := List.elem_iff.mpr hmem
    rw [hct] at hc
    exact absurd hc (by simp)

/-- Witness for C2: the only `" |"` of the input lies after the newline. -/
theorem c2_witness :
    bookmarkP (str "x\ny |z") = none ∧
      optP bookmarkP (str "x\ny |z") = some (none, str "x\ny |z") :=
  c2_bookmark_delimiter_newline.1 (str "x\ny |z") 3 (by decide) (by decide)

/-- C9: every bookmark stored by a successful `commit_details` parse
contains neither the `" |"` substring nor a newline character, and is
non-empty. -/
theorem c9_bookmark_invariant :
    ∀ (s : Input) (cd : CommitDetails) (r b : Input),
      commitDetailsP s = some (cd, r) → cd.bookmark = some b →
      findSub bookmarkDelim b = none ∧ '\n' ∉ b ∧ b ≠ [] := by
  intro s cd r b h hb
  obtain ⟨⟨t, u, hopt⟩, _⟩ := commitDetailsP_fields h
  rw [hb] at hopt
  have hbp := optP_some_inv hopt
  obtain ⟨_, hc, hne, hfs⟩ := bookmarkP_sound hbp
  refine ⟨hfs, ?_, hne⟩
  intro hmem
  have hct : b.contains '\n' = true := List.elem_iff.mpr hmem
  rw [hct] at hc
  exact absurd hc (by simp)

/-- Witness for C9 on a concrete commit-details line with bookmark. -/
theorem c9_witness :
    findSub bookmarkDelim (str "main") = none ∧ '\n' ∉ str "main" ∧ str "main" ≠ [] :=
  c9_bookmark_invariant (str "qq 00 main | x")
    (CommitDetails.mk (str "qq") (str "00") false (some (str "main")) (some (str "x")))
    [] (str "main") (by decide) (by decide)

/-- C8: a parsed `CommitDetails` never stores the literal
`"(no description set)"` as its description, and the `description()`
accessor returns that sentinel exactly when the stored description is
absent, otherwise the stored string unchanged. -/
theorem c8_description_sentinel :
    ∀ (s : Input) (cd : CommitDetails) (r : Input),
      commitDetailsP s = some (cd, r) →
      cd.description ≠ some EMPTY_DESCRIPTION ∧
        (cd.descriptionView = EMPTY_DESCRIPTION ↔ cd.description = none) ∧
        ∀ d, cd.description = some d → cd.descriptionView = d := by
  intro s cd r h
  obtain ⟨_, ⟨t, u, hdesc⟩⟩ := commitDetailsP_fields h
  have hne := descriptionP_ne_sentinel hdesc
  refine ⟨hne, ?_, ?_⟩
  · constructor
    · intro hv
      cases hd : cd.description with
      | none => rfl
      | some d =>
        exfalso
        have hview : cd.descriptionView = d := by
          simp [CommitDetails.descriptionView, hd]
        rw [hview] at hv
        rw [hv] at hd
        exact hne hd
    · intro hd
      simp [CommitDetails.descriptionView, hd]
  · intro d hd
    simp [CommitDetails.descriptionView, hd]

/-- Witness for C8 on a concrete commit-details line. -/
theorem c8_witness :
    (CommitDetails.mk (str "qq") (str "00") false none (some (str "x"))).description
      ≠ some EMPTY_DESCRIPTION :=
  (c8_description_sentinel (str "qq 00 x")
    (CommitDetails.mk (str "qq") (str "00") false none (some (str "x"))) []
    (by decide)).1

/-- C3 counterexample: on input beginning with a newline the code's
description step falls through to `rest` and captures the entire remainder
(newline included), not the empty string up to the next newline that the
claim prescribes. -/
theorem c3_counterexample :
    descriptionP (str "\nx") = some (some (str "\nx"), []) ∧
      descriptionSpecC3 (str "\nx") = some (some [], str "\nx") ∧
      descriptionP (str "\nx") ≠ descriptionSpecC3 (str "\nx") := by decide

/-- C3 (amended): a leading `"(no description set)"` maps to an absent
description; otherwise, when the remainder starts with a non-newline
character, the captured description is exactly the characters up to but
excluding the next newline (all remaining ones when no newline remains);
when the remainder is empty the description is the empty string; when the
remainder starts with a newline the `rest` fallback captures the entire
remainder, newline included; and the step succeeds on every input. -/
theorem c3_description_behaviour :
    (∀ r : Input, descriptionP (EMPTY_DESCRIPTION ++ r) = some (none, r)) ∧
      (∀ (c : Char) (s : Input), EMPTY_DESCRIPTION.isPrefixOf (c :: s) = false →
        c ≠ '\n' →
        descriptionP (c :: s) =
          some (some ((c :: s).takeWhile (fun x => ! (x == '\n'))),
            (c :: s).dropWhile (fun x => ! (x == '\n')))) ∧
      descriptionP [] = some (some [], []) ∧
      (∀ t : Input, descriptionP ('\n' :: t) = some (some ('\n' :: t), [])) ∧
      (∀ s : Input, (descriptionP s).isSome = true) := by
  refine ⟨?_, ?_, by decide, ?_, ?_⟩
  · intro r
    unfold descriptionP
    rw [lit_complete]
  · intro c s h1 h2
    have hpc : (! (c == '\n')) = true := by simp [h2]
    have hlit : lit EMPTY_DESCRIPTION (c :: s) = none := by
      unfold lit
      rw [h1]
      simp
    unfold descriptionP
    rw [hlit]
    unfold takeTill1 takeWhile1
    simp [List.takeWhile_cons, List.dropWhile_cons, hpc]
  · intro t
    have hc : ('(' == '\n') = false := by decide
    have he : EMPTY_DESCRIPTION = '(' :: str "no description set)" := rfl
    have hlit : lit EMPTY_DESCRIPTION ('\n' :: t) = none := by
      unfold lit
      rw [he]
      simp [List.isPrefixOf, hc]
    unfold descriptionP
    rw [hlit]
    unfold takeTill1 takeWhile1
    simp [List.takeWhile_cons]
  · intro s
    unfold descriptionP
    split
    · rfl
    · split
      · rfl
      · rfl

/-- Witness for C3 on a concrete one-line description. -/
theorem c3_witness :
    descriptionP (str "abc\ndef") = some (some (str "abc"), str "\ndef") := by
  have h := c3_description_behaviour.2.1 'a' (str "bc\ndef") (by decide) (by decide)
  have he : ('a' :: str "bc\ndef") = str "abc\ndef" := by decide
  rw [he] at h
  rw [h]
  decide

/-- C10 counterexample: the claim says `file_changes` consumes nothing on
input matching neither the no-changes sentence nor any file-change line,
but on the bare header line (which is neither) it consumes the entire
header. -/
theorem c10_counterexample :
    (str "The working copy has no changes.").isPrefixOf (str "Working copy changes:\n") = false ∧
      fileChangeP (str "Working copy changes:\n") = none ∧
      fileChangesP (str "Working copy changes:\n") = some ([], []) ∧
      str "Working copy changes:\n" ≠ [] := by decide

/-- C10 (amended): `file_changes` never fails — it succeeds on every input
with a possibly empty change list — and on input that matches neither the
no-changes sentence, nor the optional header line, nor any file-change
line, it succeeds with the empty list while consuming nothing. -/
theorem c10_file_changes_total :
    (∀ s : Input, (fileChangesP s).isSome = true) ∧
      (∀ s : Input,
        (str "The working copy has no changes.").isPrefixOf s = false →
        (str "Working copy changes:\n").isPrefixOf s = false →
        fileChangeP s = none →
        fileChangesP s = some ([], s)) := by
  constructor
  · intro s
    unfold fileChangesP
    split
    · rfl
    · unfold fileYesChangesP
      split
      · next hopt => exact absurd hopt (optP_ne_none _ _)
      · next os s1 hopt =>
        unfold sepBy0
        split <;> rfl
  · intro s h1 h2 h3
    have hn : fileNoChangesP s = none := by
      simp [fileNoChangesP, lit, h1]
    have hh : lit (str "Working copy changes:\n") s = none := by
      simp [lit, h2]
    simp [fileChangesP, fileYesChangesP, optP, sepBy0, hn, hh, h3]

/-- Witness for C10 amended on a concrete non-matching input. -/
theorem c10_witness : fileChangesP (str "zzz") = some ([], str "zzz") :=
  c10_file_changes_total.2 (str "zzz") (by decide) (by decide) (by decide)
